import Mathlib

/-!
Verification of the WYSIWYG HTML editor (html-editor-canva).

This file shallowly embeds the parts of the editor that the verified
properties speak about:

* the `useHistory` hook (undo/redo stacks with a debounced push),
* the `useDragAndDrop` hook (`calculateDropPosition`, `handleDragEnd`),
* `setFontSize` from `useTextFormatting` (structural wrap with a
  discrete-level fallback),
* the `isEmpty` predicate of the `WysiwygEditor` component, and
* the sanitizer module (`sanitizeHtml`, `sanitizeForOutput`), which
  configures the DOMPurify library; the library's allow-list filtering and
  the browser's HTML parsing/serialization are modelled explicitly below.

JavaScript arrays are modelled as Lean lists with index 0 first, so
`push`/`pop` act on the end of the list and `shift` drops the head.
JavaScript strings are modelled as `String`/`List Char`.
-/

namespace HtmlEditor

/-! ## History manager (`useHistory` in `src/hooks/useTextFormatting.ts` bundle)

State of the hook: the two stacks, the `currentValue` and
`lastPushedValue` refs, and the pending debounce timer.  The timer is
modelled by the value captured in the last scheduled `setTimeout` closure
(`none` when no timer is pending); `pushToHistory` always clears the
previous timer, so at most one closure can ever fire. -/

structure HistoryState where
  undoStack : List String
  redoStack : List String
  currentValue : String
  lastPushedValue : String
  pending : Option String
  deriving Repr, DecidableEq

/-- Initial hook state: both stacks empty, `currentValue` and
`lastPushedValue` hold the initial value, no timer pending. -/
def initHistory (initialValue : String) : HistoryState :=
  { undoStack := [], redoStack := [], currentValue := initialValue,
    lastPushedValue := initialValue, pending := none }

/-- `pushToHistory(value)`: updates `currentValue`, clears any existing
debounce timer and schedules a new one capturing `value`.  No stack is
touched until the timer fires. -/
def pushToHistory (value : String) (st : HistoryState) : HistoryState :=
  { st with currentValue := value, pending := some value }

/-- The body of the debounce timer scheduled by `pushToHistory`: if the
captured value equals `lastPushedValue` nothing happens; otherwise the
previous committed value is pushed onto the undo stack, the stack is
capped at `maxHistory` by dropping the oldest entry (`shift`), the redo
stack is cleared and `lastPushedValue` becomes the captured value. -/
def fireTimer (maxHistory : Nat) (st : HistoryState) : HistoryState :=
  match st.pending with
  | none => st
  | some value =>
    if value = st.lastPushedValue then { st with pending := none }
    else
      let pushed := st.undoStack ++ [st.lastPushedValue]
      let capped := if pushed.length > maxHistory then pushed.drop 1 else pushed
      { undoStack := capped, redoStack := [], currentValue := st.currentValue,
        lastPushedValue := value, pending := none }

/-- A committed record: `pushToHistory` followed by its debounce timer
firing (the calls are separated by more than the debounce interval). -/
def recordCommit (maxHistory : Nat) (value : String) (st : HistoryState) : HistoryState :=
  fireTimer maxHistory (pushToHistory value st)

/-- `undo()`: returns `null` on an empty undo stack; otherwise pops the
undo stack, pushes the committed value onto the redo stack, and makes the
popped value the committed value. -/
def undoFn (st : HistoryState) : Option String × HistoryState :=
  match st.undoStack.getLast? with
  | none => (none, st)
  | some previousValue =>
    (some previousValue,
     { undoStack := st.undoStack.dropLast,
       redoStack := st.redoStack ++ [st.lastPushedValue],
       currentValue := previousValue,
       lastPushedValue := previousValue,
       pending := st.pending })

/-- `redo()`: symmetric to `undo()`, using the redo stack.  Note that the
push onto the undo stack carries no capacity check in the source. -/
def redoFn (st : HistoryState) : Option String × HistoryState :=
  match st.redoStack.getLast? with
  | none => (none, st)
  | some nextValue =>
    (some nextValue,
     { undoStack := st.undoStack ++ [st.lastPushedValue],
       redoStack := st.redoStack.dropLast,
       currentValue := nextValue,
       lastPushedValue := nextValue,
       pending := st.pending })

/-- The state transformation of `undo()`, discarding the returned value. -/
def undoStep (st : HistoryState) : HistoryState := (undoFn st).2

/-- The state transformation of `redo()`, discarding the returned value. -/
def redoStep (st : HistoryState) : HistoryState := (redoFn st).2

/-- The primitive operations the host can drive the hook with:
a `pushToHistory` call, a debounce timer firing, `undo()`, `redo()`. -/
inductive HistoryOp where
  | push (value : String)
  | fire
  | undo
  | redo
  deriving Repr, DecidableEq

/-- One step of the hook under an operation. -/
def historyStep (maxHistory : Nat) (st : HistoryState) : HistoryOp → HistoryState
  | .push v => pushToHistory v st
  | .fire => fireTimer maxHistory st
  | .undo => undoStep st
  | .redo => redoStep st

/-- Run a sequence of operations from a state. -/
def runHistory (maxHistory : Nat) (ops : List HistoryOp) (st : HistoryState) : HistoryState :=
  ops.foldl (historyStep maxHistory) st

/-- A burst of rapid `pushToHistory` calls, each within the debounce
interval of the previous one, so each call cancels the previous timer and
no timer fires until after the last call. -/
def burstRecord (values : List String) (st : HistoryState) : HistoryState :=
  values.foldl (fun s v => pushToHistory v s) st

/-- A chain of committed records. -/
def recordAll (maxHistory : Nat) (values : List String) (st : HistoryState) : HistoryState :=
  values.foldl (fun s v => recordCommit maxHistory v s) st

/-- Each value differs from the one committed just before it. -/
def adjDistinct : String → List String → Bool
  | _, [] => true
  | prev, v :: rest => (v != prev) && adjDistinct v rest

/-! ## Drag-and-drop engine (`src/hooks/useDragAndDrop.ts`)

A block-level child of the editor is modelled by its identity and its
bounding rectangle (`getBoundingClientRect`): `top` and `height`, with
`bottom = top + height`.  Coordinates are rationals. -/

structure Block where
  id : Nat
  top : ℚ
  height : ℚ
  deriving Repr, DecidableEq

/-- Vertical midpoint of a block: `rect.top + rect.height / 2`. -/
def midY (b : Block) : ℚ := b.top + b.height / 2

/-- `rect.bottom`. -/
def rectBottom (b : Block) : ℚ := b.top + b.height

inductive DropPos where
  | before
  | after
  deriving Repr, DecidableEq

/-- Result triple of `calculateDropPosition`. -/
structure DropResolution where
  dropTarget : Option Block
  dropPosition : Option DropPos
  indicatorY : Option ℚ
  deriving Repr, DecidableEq

/-- The `for`-loop of `calculateDropPosition`, with the three mutable
locals as an accumulator; the `before` branch `break`s out of the loop. -/
def calcDropLoop (y : ℚ) (dragged : Block) :
    List Block → DropResolution → DropResolution
  | [], acc => acc
  | b :: rest, acc =>
    if b = dragged then calcDropLoop y dragged rest acc
    else if y < midY b then
      { dropTarget := some b, dropPosition := some .before, indicatorY := some b.top }
    else
      calcDropLoop y dragged rest
        { dropTarget := some b, dropPosition := some .after,
          indicatorY := some (rectBottom b) }

/-- `calculateDropPosition(y, blocks, draggedElement)`. -/
def calculateDropPosition (y : ℚ) (blocks : List Block) (dragged : Block) :
    DropResolution :=
  calcDropLoop y dragged blocks
    { dropTarget := none, dropPosition := none, indicatorY := none }

/-- The specified drop-target resolution, written from the claim: among
the candidate blocks (dragged excluded), the first one whose midpoint is
strictly above the pointer is the `before` target; otherwise the last
candidate is the `after` target; otherwise everything is `null`. -/
def dropResolutionSpec (y : ℚ) (candidates : List Block) : DropResolution :=
  match candidates.find? (fun b => decide (y < midY b)) with
  | some b =>
    { dropTarget := some b, dropPosition := some .before, indicatorY := some b.top }
  | none =>
    match candidates.getLast? with
    | some b =>
      { dropTarget := some b, dropPosition := some .after,
        indicatorY := some (rectBottom b) }
    | none => { dropTarget := none, dropPosition := none, indicatorY := none }

/-- The `dragState` record of the hook. -/
structure DragState where
  isDragging : Bool
  draggedElement : Option Nat
  dropIndicatorY : Option ℚ
  dropTarget : Option Nat
  dropPosition : Option DropPos
  deriving Repr, DecidableEq

/-- The inactive drag state `handleDragEnd` resets to. -/
def idleDragState : DragState :=
  { isDragging := false, draggedElement := none, dropIndicatorY := none,
    dropTarget := none, dropPosition := none }

/-- The engine's observable world: the drag state, whether the ghost
element is attached to `document.body`, which block ids carry the
`dragging` css class, and the document's block order. -/
structure DragEngineState where
  drag : DragState
  ghostAttached : Bool
  draggingClass : List Nat
  doc : List Nat
  deriving Repr, DecidableEq

/-- `parentElement.insertBefore` move: remove the dragged block and
re-insert it immediately before or after the target. -/
def moveBlock (doc : List Nat) (dragged target : Nat) (pos : DropPos) : List Nat :=
  let rest := doc.filter (fun b => decide (b ≠ dragged))
  rest.foldr
    (fun b acc =>
      if b = target then
        match pos with
        | .before => dragged :: b :: acc
        | .after => b :: dragged :: acc
      else b :: acc)
    []

/-- `handleDragEnd`: no-op unless a drag is active; always removes the
`dragging` class from the dragged block and the ghost; performs the move
and signals content-changed (the returned `Bool`) only when the dragged
element, drop target and drop position are all present; finally resets
the drag state to inactive. -/
def handleDragEnd (st : DragEngineState) : DragEngineState × Bool :=
  if st.drag.isDragging = false then (st, false)
  else
    let cls :=
      match st.drag.draggedElement with
      | none => st.draggingClass
      | some e => st.draggingClass.filter (fun i => decide (i ≠ e))
    match st.drag.draggedElement, st.drag.dropTarget, st.drag.dropPosition with
    | some d, some t, some p =>
      ({ drag := idleDragState, ghostAttached := false, draggingClass := cls,
         doc := moveBlock st.doc d t p }, true)
    | _, _, _ =>
      ({ drag := idleDragState, ghostAttached := false, draggingClass := cls,
         doc := st.doc }, false)

/-! ## Font-size command (`setFontSize` in `useTextFormatting`) -/

/-- The live selection as `setFontSize` observes it, together with the
outcome of the structural `range.surroundContents(span)` call (the
browser throws on ranges that partially select a node). -/
structure EditorSelection where
  rangeCount : Nat
  isCollapsed : Bool
  surroundFails : Bool
  deriving Repr, DecidableEq

/-- `range.surroundContents(span)` as a fallible operation. -/
def trySurroundContents (sel : EditorSelection) : Except Unit Unit :=
  if sel.surroundFails then .error () else .ok ()

/-- JavaScript `parseInt`: optional leading whitespace and sign, then a
maximal digit run; `none` models `NaN`. -/
def parseIntJS (s : String) : Option Int :=
  let cs := s.data.dropWhile (fun c => c = ' ' || c = '\t' || c = '\n' || c = '\r')
  let (neg, cs) :=
    match cs with
    | '-' :: rest => (true, rest)
    | '+' :: rest => (false, rest)
    | rest => (false, rest)
  let digits := cs.takeWhile Char.isDigit
  if digits.isEmpty then none
  else
    let n := digits.foldl (fun acc c => acc * 10 + (c.toNat - '0'.toNat)) 0
    some (if neg then -(n : Int) else (n : Int))

/-- The fallback's discrete level: the `if`/`else if` ladder of
`setFontSize` mapping the parsed pixel size to a native 1–7 level.  A
`NaN` size fails every `<=` comparison and lands in the final `else`. -/
def fontSizeLevel (sizeNum : Option Int) : Nat :=
  match sizeNum with
  | none => 7
  | some n =>
    if n ≤ 12 then 1
    else if n ≤ 14 then 2
    else if n ≤ 16 then 3
    else if n ≤ 18 then 4
    else if n ≤ 24 then 5
    else if n ≤ 32 then 6
    else 7

/-- The observable effect of one `setFontSize` call. -/
inductive FontSizeEffect where
  | wrapSpan (size : String)
  | execFontSizeCommand (level : Nat)
  | noSelectionAction
  deriving Repr, DecidableEq

/-- `setFontSize(size)`: with a non-collapsed selection it attempts the
span wrap; a `surroundContents` failure is caught and degraded to the
native `fontSize` command at the ladder level.  The `Bool` is the
unconditional trailing `onContentChange()`.  The function is total: no
exception escapes. -/
def setFontSize (sel : EditorSelection) (size : String) : FontSizeEffect × Bool :=
  if 0 < sel.rangeCount ∧ sel.isCollapsed = false then
    match trySurroundContents sel with
    | .ok _ => (.wrapSpan size, true)
    | .error _ => (.execFontSizeCommand (fontSizeLevel (parseIntJS size)), true)
  else (.noSelectionAction, true)

/-! ## Empty-document predicate (`WysiwygEditor`) -/

/-- `const isEmpty = !html || html === "<br>" || html === "<p><br></p>"`;
the only falsy JavaScript string is the empty string. -/
def isEmptyDocument (html : String) : Bool :=
  html == "" || html == "<br>" || html == "<p><br></p>"

/-! ## Sanitizer (`src/utils/sanitize.ts`)

`sanitizeHtml` and `sanitizeForOutput` call `DOMPurify.sanitize` with the
module's allow-lists and then (for output) run three cosmetic string
passes.  DOMPurify itself parses the string with the browser's HTML
parser, walks the resulting tree removing disallowed elements and
attributes, and re-serializes.  The parser, the serializer and
DOMPurify's filtering pass are modelled explicitly below; the
configuration data is transcribed from the source. -/

/-- JavaScript's `\s` character class (also the set trimmed by
`String.prototype.trim`). -/
def isSpaceChar (c : Char) : Bool :=
  c = ' ' || c = '\t' || c = '\n' || c = '\r' || c.toNat = 0xB || c.toNat = 0xC ||
  c.toNat = 0xA0 || c.toNat = 0x1680 || (0x2000 ≤ c.toNat && c.toNat ≤ 0x200A) ||
  c.toNat = 0x2028 || c.toNat = 0x2029 || c.toNat = 0x202F || c.toNat = 0x205F ||
  c.toNat = 0x3000 || c.toNat = 0xFEFF

/-- HTML void elements: serialized without a closing tag and parsed as
childless. -/
def voidTags : List (List Char) :=
  (["area", "base", "br", "col", "embed", "hr", "img", "input", "link",
    "meta", "source", "track", "wbr"]).map (fun s => s.data)

/-- A DOM fragment node: a text node or an element with its attribute
list (name/value pairs) and children. -/
inductive HtmlNode where
  | text (s : List Char)
  | elem (tag : List Char) (attrs : List (List Char × List Char)) (children : List HtmlNode)

/-- Serialization of one text character (`&`, `<`, `>` are escaped). -/
def escapeTextChar (c : Char) : List Char :=
  if c = '&' then "&amp;".data
  else if c = '<' then "&lt;".data
  else if c = '>' then "&gt;".data
  else [c]

def escapeText (s : List Char) : List Char :=
  (s.map escapeTextChar).flatten

/-- Serialization of one attribute-value character (`&`, `"` escaped). -/
def escapeAttrChar (c : Char) : List Char :=
  if c = '&' then "&amp;".data
  else if c = '"' then "&quot;".data
  else [c]

def serializeAttrs (attrs : List (List Char × List Char)) : List Char :=
  attrs.foldr
    (fun a acc =>
      ' ' :: (a.1 ++ ('=' :: '"' :: ((a.2.map escapeAttrChar).flatten ++ ('"' :: acc)))))
    []

mutual

def serializeNode : HtmlNode → List Char
  | .text s => escapeText s
  | .elem tag attrs children =>
    ('<' :: (tag ++ serializeAttrs attrs ++ ['>'])) ++
      (if voidTags.contains tag then []
       else serializeNodes children ++ ('<' :: '/' :: (tag ++ ['>'])))

def serializeNodes : List HtmlNode → List Char
  | [] => []
  | n :: rest => serializeNode n ++ serializeNodes rest

end

/-- Decoding of the common character references the parser understands. -/
def decodeEntities : List Char → List Char
  | '&' :: 'a' :: 'm' :: 'p' :: ';' :: rest => '&' :: decodeEntities rest
  | '&' :: 'l' :: 't' :: ';' :: rest => '<' :: decodeEntities rest
  | '&' :: 'g' :: 't' :: ';' :: rest => '>' :: decodeEntities rest
  | '&' :: 'q' :: 'u' :: 'o' :: 't' :: ';' :: rest => '"' :: decodeEntities rest
  | '&' :: '#' :: '3' :: '9' :: ';' :: rest => '\'' :: decodeEntities rest
  | '&' :: 'n' :: 'b' :: 's' :: 'p' :: ';' :: rest => Char.ofNat 0xA0 :: decodeEntities rest
  | c :: rest => c :: decodeEntities rest
  | [] => []

/-- Characters allowed in tag and attribute names by the model parser. -/
def isNameChar (c : Char) : Bool :=
  c.isAlpha || c.isDigit || c = '-' || c = '_' || c = ':'

/-- One lexed piece of markup. -/
inductive HtmlToken where
  | textTok (s : List Char)
  | openTok (tag : List Char) (attrs : List (List Char × List Char)) (selfClosing : Bool)
  | closeTok (tag : List Char)

/-- Lexing of an attribute list, up to and including the closing `>`.
Returns the attributes, the self-closing flag and the remaining input. -/
def lexAttrs : Nat → List Char → (List (List Char × List Char) × Bool × List Char)
  | 0, cs => ([], false, cs)
  | fuel + 1, cs0 =>
    let cs := cs0.dropWhile isSpaceChar
    match cs with
    | [] => ([], false, [])
    | '>' :: rest => ([], false, rest)
    | '/' :: '>' :: rest => ([], true, rest)
    | '/' :: rest => lexAttrs fuel rest
    | c :: rest =>
      let name := (c :: rest).takeWhile
        (fun ch => !(isSpaceChar ch) && ch != '=' && ch != '>' && ch != '/')
      if name.isEmpty then lexAttrs fuel rest
      else
        let afterName := ((c :: rest).drop name.length).dropWhile isSpaceChar
        match afterName with
        | '=' :: r1 =>
          let r1 := r1.dropWhile isSpaceChar
          match r1 with
          | '"' :: r2 =>
            let v := r2.takeWhile (fun ch => ch != '"')
            let (attrs, sc, r3) := lexAttrs fuel ((r2.drop v.length).drop 1)
            ((name.map Char.toLower, decodeEntities v) :: attrs, sc, r3)
          | '\'' :: r2 =>
            let v := r2.takeWhile (fun ch => ch != '\'')
            let (attrs, sc, r3) := lexAttrs fuel ((r2.drop v.length).drop 1)
            ((name.map Char.toLower, decodeEntities v) :: attrs, sc, r3)
          | _ =>
            let v := r1.takeWhile (fun ch => !(isSpaceChar ch) && ch != '>')
            let (attrs, sc, r3) := lexAttrs fuel (r1.drop v.length)
            ((name.map Char.toLower, decodeEntities v) :: attrs, sc, r3)
        | _ =>
          let (attrs, sc, r3) := lexAttrs fuel afterName
          ((name.map Char.toLower, []) :: attrs, sc, r3)

/-- The tokenizer.  Fuel bounds the recursion; `parseHtmlC` supplies
enough for every position of the input. -/
def lexHtml : Nat → List Char → List HtmlToken
  | 0, _ => []
  | _ + 1, [] => []
  | fuel + 1, '<' :: '/' :: rest =>
    let name := rest.takeWhile isNameChar
    let r2 := (rest.drop name.length).dropWhile (fun ch => ch != '>')
    .closeTok (name.map Char.toLower) :: lexHtml fuel (r2.drop 1)
  | fuel + 1, '<' :: c :: rest =>
    if c.isAlpha then
      let name := (c :: rest).takeWhile isNameChar
      let (attrs, sc, r2) := lexAttrs (rest.length + 1) ((c :: rest).drop name.length)
      .openTok (name.map Char.toLower) attrs sc :: lexHtml fuel r2
    else
      .textTok ['<'] :: lexHtml fuel (c :: rest)
  | _ + 1, ['<'] => [.textTok ['<']]
  | fuel + 1, c :: rest =>
    let txt := (c :: rest).takeWhile (fun ch => ch != '<')
    .textTok (decodeEntities txt) :: lexHtml fuel ((c :: rest).drop txt.length)

/-- Tree construction: parse a sibling list until an unmatched closing
tag or the end of input. -/
def parseNodesTk : Nat → List HtmlToken → (List HtmlNode × List HtmlToken)
  | 0, toks => ([], toks)
  | _ + 1, [] => ([], [])
  | fuel + 1, .textTok s :: rest =>
    let (ns, r) := parseNodesTk fuel rest
    (.text s :: ns, r)
  | _ + 1, .closeTok t :: rest => ([], .closeTok t :: rest)
  | fuel + 1, .openTok tag attrs sc :: rest =>
    if voidTags.contains tag || sc then
      let (ns, r) := parseNodesTk fuel rest
      (.elem tag attrs [] :: ns, r)
    else
      let (children, r1) := parseNodesTk fuel rest
      match r1 with
      | .closeTok t :: r2 =>
        if t = tag then
          let (ns, r) := parseNodesTk fuel r2
          (.elem tag attrs children :: ns, r)
        else ([.elem tag attrs children], r1)
      | _ => ([.elem tag attrs children], r1)

/-- Top level: stray closing tags are dropped and parsing resumes. -/
def parseTopLevel : Nat → List HtmlToken → List HtmlNode
  | 0, _ => []
  | fuel + 1, toks =>
    match parseNodesTk (fuel + 1) toks with
    | (ns, []) => ns
    | (ns, _ :: r) => ns ++ parseTopLevel fuel r

/-- The browser parse of an HTML fragment, as DOMPurify sees it. -/
def parseHtmlC (cs : List Char) : List HtmlNode :=
  let toks := lexHtml (cs.length + 1) cs
  parseTopLevel (toks.length + 1) toks

/-- `ALLOWED_TAGS` from the source (`ADD_TAGS` repeats `link`/`script`,
already present). -/
def allowedTagsList : List (List Char) :=
  (["p", "br", "span", "div",
    "strong", "b", "em", "i", "u", "s", "strike", "del", "ins",
    "sub", "sup", "mark",
    "h1", "h2", "h3", "h4", "h5", "h6",
    "ul", "ol", "li",
    "a", "img", "video", "source", "picture", "figure", "figcaption",
    "table", "thead", "tbody", "tfoot", "tr", "th", "td", "caption",
    "colgroup", "col",
    "blockquote", "pre", "code", "hr",
    "link", "script",
    "address", "article", "aside", "details", "summary", "section", "nav",
    "header", "footer", "main"]).map (fun s => s.data)

/-- `ALLOWED_ATTR` from the source (`ADD_ATTR` repeats entries already
present). -/
def allowedAttrList : List (List Char) :=
  (["id", "class", "style", "title", "lang", "dir",
    "href", "target", "rel",
    "src", "alt", "width", "height", "loading", "srcset", "sizes", "crossorigin",
    "controls", "autoplay", "loop", "muted", "poster", "preload",
    "colspan", "rowspan", "scope", "headers",
    "type", "integrity", "async", "defer", "charset",
    "data-*"]).map (fun s => s.data)

/-- `ALLOWED_ATTR.filter(attr => !attr.startsWith('data-'))`, the
attribute list `sanitizeForOutput` passes to DOMPurify. -/
def outputAllowedAttrList : List (List Char) :=
  allowedAttrList.filter (fun a => !(("data-").data.isPrefixOf a))

/-- DOMPurify's default `URI_SAFE_ATTRIBUTES`: attribute names whose
values are never subjected to the URI check. -/
def uriSafeAttributesList : List (List Char) :=
  (["alt", "class", "for", "id", "label", "name", "pattern", "placeholder",
    "role", "summary", "title", "value", "style", "xmlns"]).map (fun s => s.data)

/-- DOMPurify's default `DATA_URI_TAGS`. -/
def dataUriTagsList : List (List Char) :=
  (["audio", "video", "img", "source", "image", "track"]).map (fun s => s.data)

/-- DOMPurify's default `FORBID_CONTENTS`: disallowed elements whose
entire subtree is removed instead of being replaced by its children. -/
def forbidContentsList : List (List Char) :=
  (["annotation-xml", "audio", "colgroup", "desc", "foreignobject", "head",
    "iframe", "math", "mi", "mn", "mo", "ms", "mtext", "noembed", "noframes",
    "noscript", "plaintext", "script", "style", "svg", "template", "thead",
    "title", "video", "xmp"]).map (fun s => s.data)

/-- DOMPurify's `ATTR_WHITESPACE` class, removed from attribute values
before the URI check. -/
def isAttrWhitespace (c : Char) : Bool :=
  c.toNat ≤ 0x20 || c.toNat = 0xA0 || c.toNat = 0x1680 || c.toNat = 0x180E ||
  (0x2000 ≤ c.toNat && c.toNat ≤ 0x2029) || c.toNat = 0x205F || c.toNat = 0x3000

def stripAttrWs (v : List Char) : List Char :=
  v.filter (fun c => !isAttrWhitespace c)

/-- Characters matched by `[a-z+.\-]` under the `i` flag (values are
lowercased first). -/
def isSchemeChar (c : Char) : Bool :=
  ('a' ≤ c && c ≤ 'z') || c = '+' || c = '.' || c = '-'

/-- A case-insensitive match of an `ALLOWED_URI_REGEXP` of the shape
`^(?:(?:scheme₁|…|schemeₙ):|[^a-z]|[a-z+.\-]+(?:[^a-z+.\-:]|$))`: either
the value carries one of the allowed schemes, or its first character is
not a letter, or its maximal `[a-z+.\-]` run is nonempty and not followed
by a colon — i.e. the value does not look like a URI with a scheme. -/
def allowedUriTestWith (schemes : List (List Char)) (v : List Char) : Bool :=
  let t := v.map Char.toLower
  schemes.any (fun p => p.isPrefixOf t) ||
  (match t with
   | [] => false
   | c :: _ => !('a' ≤ c && c ≤ 'z')) ||
  (let run := t.takeWhile isSchemeChar
   !run.isEmpty &&
     (match t.drop run.length with
      | [] => true
      | c :: _ => c != ':'))

/-- The scheme alternatives of the custom `ALLOWED_URI_REGEXP` passed by
`sanitizeHtml` (`https?|data|mailto|tel`). -/
def inputUriSchemes : List (List Char) :=
  (["http:", "https:", "data:", "mailto:", "tel:"]).map (fun s => s.data)

/-- The scheme alternatives of DOMPurify's default `ALLOWED_URI_REGEXP`,
used by `sanitizeForOutput` which passes no custom one. -/
def defaultUriSchemes : List (List Char) :=
  (["ftp:", "ftps:", "http:", "https:", "mailto:", "tel:", "callto:",
    "sms:", "cid:", "xmpp:"]).map (fun s => s.data)

/-- DOMPurify's `_isValidAttribute` under the relevant configuration: a
`data-` name passes when `ALLOW_DATA_ATTR` is set; otherwise the name
must be allow-listed; URI-safe attributes skip the value check; other
values must match the URI regexp (after whitespace stripping), or be a
`data:` URI on a media tag, or be empty. -/
def isValidAttributeModel (allowDataAttr : Bool) (allowedAttrs schemes : List (List Char))
    (tag name value : List Char) : Bool :=
  if allowDataAttr && ("data-").data.isPrefixOf name then true
  else if !(allowedAttrs.contains name) then false
  else if uriSafeAttributesList.contains name then true
  else if allowedUriTestWith schemes (stripAttrWs value) then true
  else if (name = ("src").data || name = ("href").data || name = ("xlink:href").data) &&
      tag != ("script").data && ("data:").data.isPrefixOf value &&
      dataUriTagsList.contains tag then true
  else if value.isEmpty then true
  else false

mutual

/-- DOMPurify's sanitizing walk over one node: allowed elements keep
their allow-listed attributes and are recursed into; disallowed elements
are removed — dropping the whole subtree for `FORBID_CONTENTS` tags,
otherwise splicing the (sanitized) children in place (`KEEP_CONTENT`). -/
def purifyNode (allowDataAttr : Bool) (allowedAttrs schemes : List (List Char)) :
    HtmlNode → List HtmlNode
  | .text s => [.text s]
  | .elem tag attrs children =>
    if allowedTagsList.contains tag then
      [.elem tag
        (attrs.filter (fun a =>
          isValidAttributeModel allowDataAttr allowedAttrs schemes tag a.1 a.2))
        (purifyNodes allowDataAttr allowedAttrs schemes children)]
    else if forbidContentsList.contains tag then []
    else purifyNodes allowDataAttr allowedAttrs schemes children

def purifyNodes (allowDataAttr : Bool) (allowedAttrs schemes : List (List Char)) :
    List HtmlNode → List HtmlNode
  | [] => []
  | n :: rest =>
    purifyNode allowDataAttr allowedAttrs schemes n ++
      purifyNodes allowDataAttr allowedAttrs schemes rest

end

/-- The `DOMPurify.sanitize` call of `sanitizeHtml`:
`ALLOW_DATA_ATTR: true` and the custom URI regexp. -/
def purifyInputC (cs : List Char) : List Char :=
  serializeNodes (purifyNodes true allowedAttrList inputUriSchemes (parseHtmlC cs))

/-- `sanitizeHtml(html)`. -/
def sanitizeHtml (s : String) : String :=
  ⟨purifyInputC s.data⟩

/-- The `DOMPurify.sanitize` call of `sanitizeForOutput`:
`ALLOW_DATA_ATTR: false`, `data-*` removed from the attribute list, the
default URI regexp. -/
def purifyOutputC (cs : List Char) : List Char :=
  serializeNodes (purifyNodes false outputAllowedAttrList defaultUriSchemes (parseHtmlC cs))

/-- Does a match of `/<p>\s*<\/p>/gi` start here?  If so, return the
input after the match. -/
def matchEmptyP : List Char → Option (List Char)
  | '<' :: c1 :: c2 :: rest =>
    if c1.toLower = 'p' && c2 = '>' then
      match rest.dropWhile isSpaceChar with
      | '<' :: '/' :: d1 :: d2 :: r2 =>
        if d1.toLower = 'p' && d2 = '>' then some r2 else none
      | _ => none
    else none
  | _ => none

/-- `.replace(/<p>\s*<\/p>/gi, '')`: left-to-right removal of
non-overlapping matches. -/
def removeEmptyPAux : Nat → List Char → List Char
  | 0, cs => cs
  | _ + 1, [] => []
  | fuel + 1, c :: rest =>
    match matchEmptyP (c :: rest) with
    | some r => removeEmptyPAux fuel r
    | none => c :: removeEmptyPAux fuel rest

def removeEmptyP (cs : List Char) : List Char :=
  removeEmptyPAux cs.length cs

/-- Does `/<br\s*\/?>\s*$/i` match here, through the end of input? -/
def matchesBrEnd : List Char → Bool
  | '<' :: c1 :: c2 :: rest =>
    if c1.toLower = 'b' && c2.toLower = 'r' then
      let r := rest.dropWhile isSpaceChar
      let r := match r with
        | '/' :: r2 => r2
        | _ => r
      match r with
      | '>' :: r2 => (r2.dropWhile isSpaceChar).isEmpty
      | _ => false
    else false
  | _ => false

/-- `.replace(/<br\s*\/?>\s*$/gi, '')`: the `$` anchor means only the
final line-break tag (plus trailing whitespace) can match, so at most
one is removed per application. -/
def removeTrailingBr : List Char → List Char
  | [] => []
  | c :: rest => if matchesBrEnd (c :: rest) then [] else c :: removeTrailingBr rest

/-- JavaScript `String.prototype.trim`. -/
def trimChars (cs : List Char) : List Char :=
  ((cs.dropWhile isSpaceChar).reverse.dropWhile isSpaceChar).reverse

/-- `sanitizeForOutput(html)` on character lists: the output-profile
DOMPurify pass followed by the three cosmetic passes. -/
def sanitizeForOutputC (cs : List Char) : List Char :=
  trimChars (removeTrailingBr (removeEmptyP (purifyOutputC cs)))

/-- `sanitizeForOutput(html)`. -/
def sanitizeForOutput (s : String) : String :=
  ⟨sanitizeForOutputC s.data⟩

/-- Substring occurrence test (used to state counterexamples). -/
def containsSeq (needle : List Char) : List Char → Bool
  | [] => needle.isEmpty
  | c :: rest => needle.isPrefixOf (c :: rest) || containsSeq needle rest

mutual

/-- No attribute of the fragment is an inline `on*` handler, and no
`href` attribute value is a `javascript:` URI (after DOMPurify's
whitespace stripping and lowercasing). -/
def nodeAttrsSafe : HtmlNode → Bool
  | .text _ => true
  | .elem _ attrs children =>
    attrs.all (fun a =>
      !(("on").data.isPrefixOf a.1) &&
      !(a.1 = ("href").data &&
        ("javascript:").data.isPrefixOf ((stripAttrWs a.2).map Char.toLower))) &&
    nodesAttrsSafe children

def nodesAttrsSafe : List HtmlNode → Bool
  | [] => true
  | n :: rest => nodeAttrsSafe n && nodesAttrsSafe rest

end

mutual

/-- Every element of the fragment carries an allow-listed tag and only
attributes that `sanitizeHtml`'s profile accepts. -/
def inputCleanNode : HtmlNode → Bool
  | .text _ => true
  | .elem tag attrs children =>
    allowedTagsList.contains tag &&
    attrs.all (fun a => isValidAttributeModel true allowedAttrList inputUriSchemes tag a.1 a.2) &&
    inputCleanNodes children

def inputCleanNodes : List HtmlNode → Bool
  | [] => true
  | n :: rest => inputCleanNode n && inputCleanNodes rest

end

/-! ### Lemmas about the history manager -/

/-- Total number of snapshots held by the two stacks. -/
def stackLoad (st : HistoryState) : Nat :=
  st.undoStack.length + st.redoStack.length

lemma stackLoad_step (M : Nat) (st : HistoryState) (op : HistoryOp)
    (h : stackLoad st ≤ M) : stackLoad (historyStep M st op) ≤ M := by
  cases op with
  | push v => simpa [historyStep, pushToHistory, stackLoad] using h
  | fire =>
    unfold historyStep fireTimer
    cases hp : st.pending with
    | none => simpa [stackLoad] using h
    | some v =>
      by_cases hv : v = st.lastPushedValue
      · simpa [hv, stackLoad] using h
      · simp only [hv, if_false, stackLoad]
        split
        · simp only [List.length_drop, List.length_append, List.length_cons,
            List.length_nil, List.length]
          simp [stackLoad] at h
          omega
        · rename_i hle
          simp only [List.length_append, List.length_cons, List.length_nil, List.length] at hle ⊢
          simp [stackLoad] at h
          omega
  | undo =>
    unfold historyStep undoStep undoFn
    cases hg : st.undoStack.getLast? with
    | none => simpa [stackLoad] using h
    | some a =>
      have hne : st.undoStack ≠ [] := by
        intro h0
        rw [h0] at hg
        simp at hg
      have hpos : 0 < st.undoStack.length := List.length_pos.mpr hne
      simp only [stackLoad, List.length_dropLast, List.length_append,
        List.length_cons, List.length_nil] at h ⊢
      omega
  | redo =>
    unfold historyStep redoStep redoFn
    cases hg : st.redoStack.getLast? with
    | none => simpa [stackLoad] using h
    | some a =>
      have hne : st.redoStack ≠ [] := by
        intro h0
        rw [h0] at hg
        simp at hg
      have hpos : 0 < st.redoStack.length := List.length_pos.mpr hne
      simp only [stackLoad, List.length_dropLast, List.length_append,
        List.length_cons, List.length_nil] at h ⊢
      omega

lemma stackLoad_run (M : Nat) (ops : List HistoryOp) :
    ∀ st : HistoryState, stackLoad st ≤ M → stackLoad (runHistory M ops st) ≤ M := by
  induction ops with
  | nil => intro st h; simpa [runHistory] using h
  | cons op rest ih =>
    intro st h
    have : runHistory M (op :: rest) st = runHistory M rest (historyStep M st op) := by
      simp [runHistory]
    rw [this]
    exact ih _ (stackLoad_step M st op h)

lemma burstRecord_stacks (values : List String) :
    ∀ st : HistoryState,
      (burstRecord values st).undoStack = st.undoStack ∧
      (burstRecord values st).redoStack = st.redoStack ∧
      (burstRecord values st).lastPushedValue = st.lastPushedValue := by
  induction values with
  | nil => intro st; simp [burstRecord]
  | cons v rest ih =>
    intro st
    have : burstRecord (v :: rest) st = burstRecord rest (pushToHistory v st) := by
      simp [burstRecord]
    rw [this]
    simpa [pushToHistory] using ih (pushToHistory v st)

lemma burstRecord_concat (vs : List String) (v : String) (st : HistoryState) :
    burstRecord (vs ++ [v]) st = pushToHistory v (burstRecord vs st) := by
  simp [burstRecord, List.foldl_append]

lemma undoStep_facts (st : HistoryState) (h : st.undoStack ≠ []) :
    (undoStep st).undoStack.length = st.undoStack.length - 1 ∧
    (undoStep st).redoStack.length = st.redoStack.length + 1 ∧
    (undoStep st).currentValue = (undoStep st).lastPushedValue := by
  rcases st.undoStack.eq_nil_or_concat' with h0 | ⟨L, b, hL⟩
  · exact absurd h0 h
  · simp [undoStep, undoFn, hL, List.getLast?_concat, List.dropLast_concat]

lemma redoStep_facts (st : HistoryState) (h : st.redoStack ≠ []) :
    (redoStep st).redoStack.length = st.redoStack.length - 1 ∧
    (redoStep st).undoStack.length = st.undoStack.length + 1 := by
  rcases st.redoStack.eq_nil_or_concat' with h0 | ⟨L, b, hL⟩
  · exact absurd h0 h
  · simp [redoStep, redoFn, hL, List.getLast?_concat, List.dropLast_concat]

/-- One `redo()` exactly cancels one `undo()` on a state whose committed
value agrees with `lastPushedValue` and whose undo stack is nonempty. -/
lemma redoStep_undoStep (st : HistoryState) (h : st.undoStack ≠ [])
    (hcv : st.currentValue = st.lastPushedValue) : redoStep (undoStep st) = st := by
  rcases st.undoStack.eq_nil_or_concat' with h0 | ⟨L, b, hL⟩
  · exact absurd h0 h
  · cases st with
    | mk u r c lp p =>
      simp only at hL hcv
      subst hcv
      simp [undoStep, undoFn, redoStep, redoFn, hL,
        List.getLast?_concat, List.dropLast_concat]

lemma undoStep_iter_facts (n : Nat) :
    ∀ st : HistoryState, n ≤ st.undoStack.length →
      st.currentValue = st.lastPushedValue →
      (undoStep^[n] st).undoStack.length = st.undoStack.length - n ∧
      (undoStep^[n] st).redoStack.length = st.redoStack.length + n ∧
      (undoStep^[n] st).currentValue = (undoStep^[n] st).lastPushedValue := by
  induction n with
  | zero => intro st _ hcv; simpa using hcv
  | succ n ih =>
    intro st hn hcv
    have hne : st.undoStack ≠ [] := by
      intro h0
      rw [h0] at hn
      simp at hn
    obtain ⟨h1, h2, h3⟩ := undoStep_facts st hne
    have hle : n ≤ (undoStep st).undoStack.length := by omega
    obtain ⟨g1, g2, g3⟩ := ih (undoStep st) hle h3
    rw [Function.iterate_succ_apply]
    refine ⟨?_, ?_, g3⟩
    · rw [g1, h1]; omega
    · rw [g2, h2]; omega

lemma redoStep_iter_redo_length (n : Nat) :
    ∀ st : HistoryState, n ≤ st.redoStack.length →
      (redoStep^[n] st).redoStack.length = st.redoStack.length - n := by
  induction n with
  | zero => intro st _; simp
  | succ n ih =>
    intro st hn
    have hne : st.redoStack ≠ [] := by
      intro h0
      rw [h0] at hn
      simp at hn
    obtain ⟨h1, _⟩ := redoStep_facts st hne
    rw [Function.iterate_succ_apply, ih (redoStep st) (by omega), h1]
    omega

/-- `n` redos cancel `n` undos as long as the undo stack is deep enough. -/
lemma redo_undo_iter (n : Nat) :
    ∀ st : HistoryState, n ≤ st.undoStack.length →
      st.currentValue = st.lastPushedValue →
      redoStep^[n] (undoStep^[n] st) = st := by
  induction n with
  | zero => intro st _ _; simp
  | succ n ih =>
    intro st hn hcv
    obtain ⟨h1, _, h3⟩ := undoStep_iter_facts n st (by omega) hcv
    have hne : (undoStep^[n] st).undoStack ≠ [] := by
      intro h0
      rw [h0] at h1
      simp at h1
      omega
    rw [Function.iterate_succ_apply' undoStep, Function.iterate_succ_apply redoStep,
      redoStep_undoStep _ hne h3]
    exact ih st (by omega) hcv

lemma recordCommit_of_ne (M : Nat) (v : String) (st : HistoryState)
    (h : v ≠ st.lastPushedValue) :
    recordCommit M v st =
      { undoStack :=
          if (st.undoStack ++ [st.lastPushedValue]).length > M
          then (st.undoStack ++ [st.lastPushedValue]).drop 1
          else st.undoStack ++ [st.lastPushedValue],
        redoStack := [], currentValue := v, lastPushedValue := v, pending := none } := by
  simp [recordCommit, pushToHistory, fireTimer, h]

lemma recordAll_facts (M : Nat) (values : List String) :
    ∀ st : HistoryState,
      adjDistinct st.lastPushedValue values = true →
      st.currentValue = st.lastPushedValue →
      st.redoStack = [] →
      st.undoStack.length ≤ M →
      (recordAll M values st).lastPushedValue = values.getLastD st.lastPushedValue ∧
      (recordAll M values st).currentValue = (recordAll M values st).lastPushedValue ∧
      (recordAll M values st).redoStack = [] ∧
      (recordAll M values st).undoStack.length = min (st.undoStack.length + values.length) M := by
  induction values with
  | nil =>
    intro st _ hcv hredo hle
    simp [recordAll, hcv, hredo]
    omega
  | cons v rest ih =>
    intro st hdist hcv hredo hle
    simp only [adjDistinct, Bool.and_eq_true, bne_iff_ne] at hdist
    obtain ⟨hne, hdist'⟩ := hdist
    have hstep : recordAll M (v :: rest) st = recordAll M rest (recordCommit M v st) := by
      simp [recordAll]
    rw [hstep, recordCommit_of_ne M v st hne]
    have hlen : (if (st.undoStack ++ [st.lastPushedValue]).length > M
        then (st.undoStack ++ [st.lastPushedValue]).drop 1
        else st.undoStack ++ [st.lastPushedValue]).length = min (st.undoStack.length + 1) M := by
      split <;> simp_all
      omega
    obtain ⟨g1, g2, g3, g4⟩ := ih
      { undoStack :=
          if (st.undoStack ++ [st.lastPushedValue]).length > M
          then (st.undoStack ++ [st.lastPushedValue]).drop 1
          else st.undoStack ++ [st.lastPushedValue],
        redoStack := [], currentValue := v, lastPushedValue := v, pending := none }
      hdist' rfl rfl (by simpa using le_of_eq_of_le hlen (by omega))
    refine ⟨?_, g2, g3, ?_⟩
    · rw [g1]
      show rest.getLastD v = (v :: rest).getLastD st.lastPushedValue
      rw [List.getLastD_cons]
    · rw [g4]
      show ((if (st.undoStack ++ [st.lastPushedValue]).length > M
          then (st.undoStack ++ [st.lastPushedValue]).drop 1
          else st.undoStack ++ [st.lastPushedValue]).length + rest.length) ⊓ M
        = (st.undoStack.length + (v :: rest).length) ⊓ M
      rw [hlen]
      simp only [List.length_cons]
      omega

/-! ### Lemmas about the sanitizer -/

lemma dropWhile_dropWhile (p : Char → Bool) (l : List Char) :
    (l.dropWhile p).dropWhile p = l.dropWhile p := by
  induction l with
  | nil => rfl
  | cons a t ih =>
    by_cases h : p a
    · simp [List.dropWhile_cons, h, ih]
    · simp [List.dropWhile_cons, h]

lemma dropWhile_eq_self_of_head (p : Char → Bool) (l : List Char)
    (h : ∀ c, l.head? = some c → p c = false) : l.dropWhile p = l := by
  cases l with
  | nil => rfl
  | cons a t => simp [List.dropWhile_cons, h a rfl]

lemma head_false_of_dropWhile_eq_self (p : Char → Bool) (l : List Char)
    (h : l.dropWhile p = l) : ∀ c, l.head? = some c → p c = false := by
  intro c hc
  cases l with
  | nil => simp at hc
  | cons a t =>
    simp only [List.head?_cons, Option.some.injEq] at hc
    subst hc
    by_contra hp
    simp only [Bool.not_eq_false] at hp
    rw [List.dropWhile_cons, if_pos hp] at h
    have hlen := congrArg List.length h
    have hle : (t.dropWhile p).length ≤ t.length :=
      (List.dropWhile_suffix p).sublist.length_le
    simp only [List.length_cons] at hlen
    omega

lemma head?_of_prefix_ne_nil {t B : List Char} (h : t <+: B) (hne : t ≠ []) :
    t.head? = B.head? := by
  obtain ⟨r, rfl⟩ := h
  cases t with
  | nil => exact absurd rfl hne
  | cons a t' => rfl

/-- `String.prototype.trim` is idempotent. -/
lemma trimChars_idem (l : List Char) : trimChars (trimChars l) = trimChars l := by
  have hBfix : (l.dropWhile isSpaceChar).dropWhile isSpaceChar = l.dropWhile isSpaceChar :=
    dropWhile_dropWhile _ l
  have hpre : ((l.dropWhile isSpaceChar).reverse.dropWhile isSpaceChar).reverse <+:
      l.dropWhile isSpaceChar := by
    have hs := List.dropWhile_suffix (l := (l.dropWhile isSpaceChar).reverse) isSpaceChar
    have h2 := List.reverse_prefix.mpr hs
    simpa using h2
  have hfront : (((l.dropWhile isSpaceChar).reverse.dropWhile isSpaceChar).reverse).dropWhile
      isSpaceChar = ((l.dropWhile isSpaceChar).reverse.dropWhile isSpaceChar).reverse := by
    apply dropWhile_eq_self_of_head
    intro c hc
    have hne : ((l.dropWhile isSpaceChar).reverse.dropWhile isSpaceChar).reverse ≠ [] := by
      intro h0
      rw [h0] at hc
      simp at hc
    rw [head?_of_prefix_ne_nil hpre hne] at hc
    exact head_false_of_dropWhile_eq_self _ _ hBfix c hc
  have hXfix : ((l.dropWhile isSpaceChar).reverse.dropWhile isSpaceChar).dropWhile isSpaceChar
      = (l.dropWhile isSpaceChar).reverse.dropWhile isSpaceChar :=
    dropWhile_dropWhile _ _
  show (((trimChars l).dropWhile isSpaceChar).reverse.dropWhile isSpaceChar).reverse =
    trimChars l
  show ((((l.dropWhile isSpaceChar).reverse.dropWhile isSpaceChar).reverse.dropWhile
      isSpaceChar).reverse.dropWhile isSpaceChar).reverse = trimChars l
  rw [hfront, List.reverse_reverse, hXfix]
  rfl

lemma takeWhile_append_of_all (p : Char → Bool) (xs : List Char) (y : Char) (r : List Char)
    (hxs : ∀ c ∈ xs, p c = true) (hy : p y = false) :
    (xs ++ y :: r).takeWhile p = xs := by
  induction xs with
  | nil => simp [List.takeWhile_cons, hy]
  | cons a t ih =>
    have ha : p a = true := hxs a (by simp)
    simp only [List.cons_append, List.takeWhile_cons, ha, if_true]
    rw [ih (fun c hc => hxs c (by simp [hc]))]

/-- A value starting (case-insensitively) with `javascript:` matches no
`ALLOWED_URI_REGEXP` whose scheme alternatives all avoid the letter `j`. -/
lemma allowedUriTestWith_javascript (schemes : List (List Char)) (v : List Char)
    (hs : schemes.all
      (fun p => match p with | [] => false | c :: _ => c != 'j') = true)
    (hjs : (("javascript:").data).isPrefixOf (v.map Char.toLower) = true) :
    allowedUriTestWith schemes v = false := by
  obtain ⟨r, hr⟩ := List.isPrefixOf_iff_prefix.mp hjs
  simp only [allowedUriTestWith]
  rw [← hr]
  have hsplit : ("javascript:").data ++ r = ("javascript").data ++ (':' :: r) := rfl
  rw [hsplit]
  have hrun : (("javascript").data ++ (':' :: r)).takeWhile isSchemeChar =
      ("javascript").data :=
    takeWhile_append_of_all _ _ _ _ (by decide) (by decide)
  rw [hrun]
  have hdrop : (("javascript").data ++ (':' :: r)).drop (("javascript").data).length =
      ':' :: r := List.drop_left _ _
  rw [hdrop]
  simp only [Bool.or_eq_false_iff]
  refine ⟨⟨?_, ?_⟩, ?_⟩
  · rw [List.any_eq_false]
    intro p hp
    have := List.all_eq_true.mp hs p hp
    cases p with
    | nil => simp at this
    | cons c p' =>
      simp only [bne_iff_ne] at this
      show ¬(List.isPrefixOf (c :: p') ('j' :: (("avascript").data ++ (':' :: r))) = true)
      simp only [List.isPrefixOf, Bool.and_eq_true, beq_iff_eq]
      intro hcon
      exact this hcon.1
  · show (!(decide ('a' ≤ 'j') && decide ('j' ≤ 'z'))) = false
    decide
  · simp

lemma isPrefixOf_cons_cons_false (a b : Char) (xs ys : List Char) (h : (a == b) = false) :
    ((a :: xs).isPrefixOf (b :: ys)) = false := by
  simp only [List.isPrefixOf, h, Bool.false_and]

lemma on_not_prefixOf_data (r : List Char) :
    (("on").data).isPrefixOf ('d' :: r) = false := by
  show (('o' :: (("n").data)).isPrefixOf ('d' :: r)) = false
  exact isPrefixOf_cons_cons_false _ _ _ _ (by decide)

lemma js_not_prefixOf_d (z : List Char) :
    (("javascript:").data).isPrefixOf ('d' :: z) = false := by
  show (('j' :: (("avascript:").data)).isPrefixOf ('d' :: z)) = false
  exact isPrefixOf_cons_cons_false _ _ _ _ (by decide)

/-- Every attribute kept by `isValidAttributeModel` is neither an inline
handler name nor an `href` with a `javascript:` value. -/
lemma validAttr_safe (ada : Bool) (aal schemes : List (List Char)) (tag n v : List Char)
    (haal : ∀ a ∈ aal, (("on").data).isPrefixOf a = false)
    (hsch : schemes.all
      (fun p => match p with | [] => false | c :: _ => c != 'j') = true)
    (hvalid : isValidAttributeModel ada aal schemes tag n v = true) :
    (("on").data).isPrefixOf n = false ∧
    (n = ("href").data →
      (("javascript:").data).isPrefixOf ((stripAttrWs v).map Char.toLower) = false) := by
  unfold isValidAttributeModel at hvalid
  by_cases h1 : (ada && ("data-").data.isPrefixOf n) = true
  · have hpref : (("data-").data).isPrefixOf n = true := by
      simp only [Bool.and_eq_true] at h1
      exact h1.2
    obtain ⟨r, hr⟩ := List.isPrefixOf_iff_prefix.mp hpref
    constructor
    · rw [← hr]
      exact on_not_prefixOf_data _
    · intro hn
      rw [hn] at hr
      have hcon : (("data-").data).isPrefixOf (("href").data) = true :=
        List.isPrefixOf_iff_prefix.mpr ⟨r, hr⟩
      exact absurd hcon (by decide)
  · rw [if_neg h1] at hvalid
    by_cases h2 : aal.contains n = true
    · rw [if_neg (by rw [h2]; simp)] at hvalid
      refine ⟨haal n (List.mem_of_elem_eq_true h2), ?_⟩
      intro hn
      subst hn
      rw [if_neg (by rw [show uriSafeAttributesList.contains (("href").data) = false
        from by decide]; simp)] at hvalid
      by_cases h3 : allowedUriTestWith schemes (stripAttrWs v) = true
      · by_contra hjs
        simp only [Bool.not_eq_false] at hjs
        rw [allowedUriTestWith_javascript schemes _ hsch hjs] at h3
        simp at h3
      · rw [if_neg h3] at hvalid
        split at hvalid
        · rename_i h4
          have hdata : ("data:").data.isPrefixOf v = true := by
            simp only [Bool.and_eq_true] at h4
            exact h4.1.2
          obtain ⟨r, hr⟩ := List.isPrefixOf_iff_prefix.mp hdata
          rw [← hr]
          have h6 : ("data:").data ++ r = 'd' :: ((("ata:").data) ++ r) := rfl
          rw [h6]
          have h7 : stripAttrWs ('d' :: ((("ata:").data) ++ r)) =
              'd' :: stripAttrWs ((("ata:").data) ++ r) := by
            unfold stripAttrWs
            rw [List.filter_cons, if_pos (by decide)]
          rw [h7, List.map_cons]
          rw [show Char.toLower 'd' = 'd' from by decide]
          exact js_not_prefixOf_d _
        · split at hvalid
          · rename_i h5
            have hv : v = [] := by
              cases v with
              | nil => rfl
              | cons a t => simp [List.isEmpty] at h5
            rw [hv]
            decide
          · exact absurd hvalid (by simp)
    · exfalso
      have h2' : (!aal.contains n) = true := by
        cases hcc : aal.contains n with
        | true => exact absurd hcc h2
        | false => rfl
      rw [if_pos h2'] at hvalid
      exact absurd hvalid (by simp)

lemma nodesAttrsSafe_append (xs ys : List HtmlNode) :
    nodesAttrsSafe (xs ++ ys) = (nodesAttrsSafe xs && nodesAttrsSafe ys) := by
  induction xs with
  | nil => simp [nodesAttrsSafe]
  | cons n rest ih => simp [nodesAttrsSafe, ih, Bool.and_assoc]

mutual

lemma purifyNode_attrsSafe (ada : Bool) (aal schemes : List (List Char))
    (haal : ∀ a ∈ aal, (("on").data).isPrefixOf a = false)
    (hsch : schemes.all
      (fun p => match p with | [] => false | c :: _ => c != 'j') = true) :
    ∀ n : HtmlNode, nodesAttrsSafe (purifyNode ada aal schemes n) = true
  | .text s => by simp [purifyNode, nodesAttrsSafe, nodeAttrsSafe]
  | .elem tag attrs children => by
    unfold purifyNode
    by_cases ht : allowedTagsList.contains tag
    · rw [if_pos ht]
      have hrec := purifyNodes_attrsSafe ada aal schemes haal hsch children
      simp only [nodesAttrsSafe, nodeAttrsSafe, Bool.and_eq_true, and_true]
      refine ⟨?_, hrec⟩
      rw [List.all_eq_true]
      intro a ha
      have hv := (List.mem_filter.mp ha).2
      obtain ⟨hon, hhref⟩ := validAttr_safe ada aal schemes tag a.1 a.2 haal hsch hv
      simp only [hon, Bool.not_false, Bool.true_and]
      by_cases hn : a.1 = ("href").data
      · simp [hn, hhref hn]
      · simp [hn]
    · rw [if_neg ht]
      by_cases hf : forbidContentsList.contains tag
      · rw [if_pos hf]; rfl
      · rw [if_neg hf]
        exact purifyNodes_attrsSafe ada aal schemes haal hsch children

lemma purifyNodes_attrsSafe (ada : Bool) (aal schemes : List (List Char))
    (haal : ∀ a ∈ aal, (("on").data).isPrefixOf a = false)
    (hsch : schemes.all
      (fun p => match p with | [] => false | c :: _ => c != 'j') = true) :
    ∀ l : List HtmlNode, nodesAttrsSafe (purifyNodes ada aal schemes l) = true
  | [] => by simp [purifyNodes, nodesAttrsSafe]
  | n :: rest => by
    unfold purifyNodes
    rw [nodesAttrsSafe_append]
    rw [purifyNode_attrsSafe ada aal schemes haal hsch n,
        purifyNodes_attrsSafe ada aal schemes haal hsch rest]
    rfl

end

mutual

lemma purifyNode_fixed : ∀ n : HtmlNode, inputCleanNode n = true →
    purifyNode true allowedAttrList inputUriSchemes n = [n]
  | .text _, _ => rfl
  | .elem tag attrs children, h => by
    unfold inputCleanNode at h
    simp only [Bool.and_eq_true] at h
    obtain ⟨⟨ht, hattrs⟩, hch⟩ := h
    unfold purifyNode
    rw [if_pos ht]
    rw [List.filter_eq_self.mpr (fun a ha => List.all_eq_true.mp hattrs a ha)]
    rw [purifyNodes_fixed children hch]

lemma purifyNodes_fixed : ∀ l : List HtmlNode, inputCleanNodes l = true →
    purifyNodes true allowedAttrList inputUriSchemes l = l
  | [], _ => rfl
  | n :: rest, h => by
    unfold inputCleanNodes at h
    simp only [Bool.and_eq_true] at h
    unfold purifyNodes
    rw [purifyNode_fixed n h.1, purifyNodes_fixed rest h.2]
    rfl

end

/-! ### Lemmas about the drag-reorder engine -/

lemma getLast?_cons_ne_nil {α : Type} (b : α) (l : List α) (h : l ≠ []) :
    (b :: l).getLast? = l.getLast? := by
  rcases l.eq_nil_or_concat' with h0 | ⟨L, x, hL⟩
  · exact absurd h0 h
  · rw [hL, ← List.cons_append, List.getLast?_concat, List.getLast?_concat]

lemma calcDropLoop_characterization (y : ℚ) (dragged : Block) :
    ∀ (bs : List Block) (acc : DropResolution),
      calcDropLoop y dragged bs acc =
        match (bs.filter (fun b => decide (b ≠ dragged))).find?
            (fun b => decide (y < midY b)) with
        | some b =>
          { dropTarget := some b, dropPosition := some .before, indicatorY := some b.top }
        | none =>
          match (bs.filter (fun b => decide (b ≠ dragged))).getLast? with
          | some b =>
            { dropTarget := some b, dropPosition := some .after,
              indicatorY := some (rectBottom b) }
          | none => acc := by
  intro bs
  induction bs with
  | nil => intro acc; simp [calcDropLoop]
  | cons b rest ih =>
    intro acc
    by_cases hb : b = dragged
    · subst hb
      have h1 : calcDropLoop y b (b :: rest) acc = calcDropLoop y b rest acc := by
        simp [calcDropLoop]
      have hfil : List.filter (fun x => decide (x ≠ b)) (b :: rest) =
          List.filter (fun x => decide (x ≠ b)) rest := by
        simp
      rw [h1, hfil]
      exact ih acc
    · have hkeep : ((b :: rest).filter (fun x => decide (x ≠ dragged))) =
          b :: rest.filter (fun x => decide (x ≠ dragged)) := by
        simp [List.filter, hb]
      by_cases hy : y < midY b
      · simp [calcDropLoop, hb, hy, hkeep, List.find?]
      · rw [hkeep]
        simp only [calcDropLoop, hb, if_neg hb, hy, if_neg hy, if_false]
        rw [ih]
        have hfind : (b :: rest.filter (fun x => decide (x ≠ dragged))).find?
            (fun x => decide (y < midY x)) =
            (rest.filter (fun x => decide (x ≠ dragged))).find?
              (fun x => decide (y < midY x)) := by
          simp [List.find?, hy]
        rw [hfind]
        cases hf : (rest.filter (fun x => decide (x ≠ dragged))).find?
            (fun x => decide (y < midY x)) with
        | some c => simp
        | none =>
          simp only
          cases hrest : (rest.filter (fun x => decide (x ≠ dragged))) with
          | nil => simp
          | cons r0 rtail =>
            rw [← hrest]
            rw [getLast?_cons_ne_nil b _ (by rw [hrest]; simp)]
            cases hg : (rest.filter (fun x => decide (x ≠ dragged))).getLast? with
            | some c => simp
            | none =>
              rw [List.getLast?_eq_none_iff] at hg
              rw [hg] at hrest
              simp at hrest

/-! ### Claim theorems -/

/-- C7: `calculateDropPosition` excludes the dragged element, resolves
the first remaining block whose midpoint is strictly below the pointer
(`y < midY`) as the `before` target with the indicator at its top; if the
pointer is at or below every remaining midpoint, the last remaining block
is the `after` target with the indicator at its bottom; and everything is
`null` when no candidate remains. -/
theorem calculateDropPosition_resolution (y : ℚ) (blocks : List Block) (dragged : Block) :
    calculateDropPosition y blocks dragged =
      dropResolutionSpec y (blocks.filter (fun b => decide (b ≠ dragged))) := by
  unfold calculateDropPosition dropResolutionSpec
  rw [calcDropLoop_characterization y dragged blocks]

/-- C10: when the pointer is released during an active drag,
`handleDragEnd` returns the engine to the idle state regardless of
whether a valid target/position pair exists: every drag-state field is
reset to its inactive value, the ghost is removed from the document, and
the `dragging` class is removed from the dragged block. -/
theorem handleDragEnd_cleanup (st : DragEngineState) (h : st.drag.isDragging = true) :
    (handleDragEnd st).1.drag = idleDragState ∧
    (handleDragEnd st).1.ghostAttached = false ∧
    (∀ e, st.drag.draggedElement = some e → e ∉ (handleDragEnd st).1.draggingClass) := by
  unfold handleDragEnd
  rw [h]
  simp only [Bool.true_eq_false, if_false]
  split
  · rename_i d t p heq
    refine ⟨rfl, rfl, ?_⟩
    intro e he
    simp only
    rw [he]
    simp [List.mem_filter]
  · refine ⟨rfl, rfl, ?_⟩
    intro e he
    simp only
    rw [he]
    simp [List.mem_filter]

/-- C10 witness: a concrete drag with no valid drop target still cleans
up completely. -/
theorem handleDragEnd_cleanup_witness :
    (handleDragEnd
        { drag := { isDragging := true, draggedElement := some 2,
                    dropIndicatorY := none, dropTarget := none, dropPosition := none },
          ghostAttached := true, draggingClass := [2], doc := [1, 2, 3] }).1.drag =
      idleDragState ∧
    (handleDragEnd
        { drag := { isDragging := true, draggedElement := some 2,
                    dropIndicatorY := none, dropTarget := none, dropPosition := none },
          ghostAttached := true, draggingClass := [2], doc := [1, 2, 3] }).1.ghostAttached =
      false ∧
    (∀ e, ({ isDragging := true, draggedElement := some 2, dropIndicatorY := none,
             dropTarget := none, dropPosition := none } : DragState).draggedElement = some e →
      e ∉ (handleDragEnd
        { drag := { isDragging := true, draggedElement := some 2,
                    dropIndicatorY := none, dropTarget := none, dropPosition := none },
          ghostAttached := true, draggingClass := [2], doc := [1, 2, 3] }).1.draggingClass) :=
  handleDragEnd_cleanup
    { drag := { isDragging := true, draggedElement := some 2,
                dropIndicatorY := none, dropTarget := none, dropPosition := none },
      ghostAttached := true, draggingClass := [2], doc := [1, 2, 3] } rfl

/-- C8: when the selection is active and non-collapsed but
`range.surroundContents` fails, `setFontSize` catches the failure locally
(it is a total function returning an effect, never propagating an
exception) and instead issues the native discrete `fontSize` command at
the ladder level for the requested pixel size, a level always within the
fixed 7-step scale. -/
theorem setFontSize_fallback (sel : EditorSelection) (size : String)
    (hr : 0 < sel.rangeCount) (hc : sel.isCollapsed = false)
    (hf : trySurroundContents sel = .error ()) :
    setFontSize sel size =
      (.execFontSizeCommand (fontSizeLevel (parseIntJS size)), true) ∧
    1 ≤ fontSizeLevel (parseIntJS size) ∧ fontSizeLevel (parseIntJS size) ≤ 7 := by
  refine ⟨?_, ?_, ?_⟩
  · simp [setFontSize, hr, hc, hf]
  · unfold fontSizeLevel
    cases parseIntJS size with
    | none => simp
    | some n => simp only; split_ifs <;> omega
  · unfold fontSizeLevel
    cases parseIntJS size with
    | none => simp
    | some n => simp only; split_ifs <;> omega

/-- C8 witness: a concrete failing wrap at size `"15px"` falls back to
the discrete command. -/
theorem setFontSize_fallback_witness :
    setFontSize { rangeCount := 1, isCollapsed := false, surroundFails := true } ("15px") =
      (.execFontSizeCommand (fontSizeLevel (parseIntJS ("15px"))), true) ∧
    1 ≤ fontSizeLevel (parseIntJS ("15px")) ∧ fontSizeLevel (parseIntJS ("15px")) ≤ 7 :=
  setFontSize_fallback
    { rangeCount := 1, isCollapsed := false, surroundFails := true } ("15px")
    (by decide) rfl rfl

/-- C9: the editor shows the placeholder exactly when the `html` prop is
the empty string, a bare line break, or an empty paragraph. -/
theorem isEmptyDocument_iff (html : String) :
    isEmptyDocument html = true ↔
      html = "" ∨ html = "<br>" ∨ html = "<p><br></p>" := by
  simp [isEmptyDocument, or_assoc]

/-- C4: under any sequence of hook operations (`pushToHistory` calls,
timer firings, `undo()`, `redo()`) the undo stack never exceeds
`maxHistory` — even though `redo()` pushes onto it with no capacity check
— and a committed push that would exceed the bound drops the oldest undo
entry (FIFO eviction). -/
theorem history_undo_stack_bounded :
    (∀ (maxHistory : Nat) (v0 : String) (ops : List HistoryOp),
      (runHistory maxHistory ops (initHistory v0)).undoStack.length ≤ maxHistory) ∧
    (∀ (maxHistory : Nat) (st : HistoryState) (v : String),
      v ≠ st.lastPushedValue →
      (recordCommit maxHistory v st).undoStack =
        if st.undoStack.length + 1 > maxHistory
        then (st.undoStack ++ [st.lastPushedValue]).drop 1
        else st.undoStack ++ [st.lastPushedValue]) := by
  constructor
  · intro M v0 ops
    have h := stackLoad_run M ops (initHistory v0) (by simp [stackLoad, initHistory])
    unfold stackLoad at h
    omega
  · intro M st v h
    rw [recordCommit_of_ne M v st h]
    simp

/-- C4 witness. -/
theorem history_undo_stack_bounded_witness :
    (runHistory 2 [HistoryOp.push ("b"), HistoryOp.fire, HistoryOp.undo, HistoryOp.redo]
        (initHistory ("a"))).undoStack.length ≤ 2 ∧
    (recordCommit 1 ("c") (initHistory ("a"))).undoStack =
      (if (initHistory ("a")).undoStack.length + 1 > 1
       then ((initHistory ("a")).undoStack ++ [(initHistory ("a")).lastPushedValue]).drop 1
       else (initHistory ("a")).undoStack ++ [(initHistory ("a")).lastPushedValue]) :=
  ⟨history_undo_stack_bounded.1 2 ("a")
      [HistoryOp.push ("b"), HistoryOp.fire, HistoryOp.undo, HistoryOp.redo],
   history_undo_stack_bounded.2 1 (initHistory ("a")) ("c") (by decide)⟩

/-- C5: a burst of `pushToHistory` calls, each within the debounce
interval of the previous, yields at most one stack push when the single
surviving timer fires: nothing at all if the burst's final value equals
the last committed value; otherwise exactly one push whose pushed entry
is the value committed before the burst began (so intermediate values of
the burst never reach the stack). -/
theorem pushToHistory_burst_coalesce (maxHistory : Nat) (st : HistoryState)
    (vs : List String) (v : String) :
    (v = st.lastPushedValue →
      (fireTimer maxHistory (burstRecord (vs ++ [v]) st)).undoStack = st.undoStack ∧
      (fireTimer maxHistory (burstRecord (vs ++ [v]) st)).lastPushedValue =
        st.lastPushedValue) ∧
    (v ≠ st.lastPushedValue →
      (fireTimer maxHistory (burstRecord (vs ++ [v]) st)).undoStack =
        (if st.undoStack.length + 1 > maxHistory
         then (st.undoStack ++ [st.lastPushedValue]).drop 1
         else st.undoStack ++ [st.lastPushedValue]) ∧
      (fireTimer maxHistory (burstRecord (vs ++ [v]) st)).lastPushedValue = v ∧
      ∀ w ∈ (fireTimer maxHistory (burstRecord (vs ++ [v]) st)).undoStack,
        w ∈ st.undoStack ∨ w = st.lastPushedValue) := by
  obtain ⟨hu, hr, hl⟩ := burstRecord_stacks vs st
  rw [burstRecord_concat]
  constructor
  · intro hv
    simp [fireTimer, pushToHistory, hl, hv, hu]
  · intro hv
    have hne : v ≠ (burstRecord vs st).lastPushedValue := by rw [hl]; exact hv
    have he : (fireTimer maxHistory (pushToHistory v (burstRecord vs st))).undoStack =
        (if st.undoStack.length + 1 > maxHistory
         then (st.undoStack ++ [st.lastPushedValue]).drop 1
         else st.undoStack ++ [st.lastPushedValue]) := by
      simp only [fireTimer, pushToHistory, hne, if_neg hne]
      simp [hu, hl]
    refine ⟨he, ?_, ?_⟩
    · simp [fireTimer, pushToHistory, hne, if_neg hne]
    · intro w hw
      rw [he] at hw
      split at hw
      · have h2 := List.mem_of_mem_drop hw
        rcases List.mem_append.mp h2 with h1 | h2
        · exact Or.inl h1
        · exact Or.inr (List.mem_singleton.mp h2)
      · rcases List.mem_append.mp hw with h1 | h2
        · exact Or.inl h1
        · exact Or.inr (List.mem_singleton.mp h2)

/-- C5 witness: a three-call burst `x, y, z` over a committed value `a`
pushes exactly the pre-burst value `a`. -/
theorem pushToHistory_burst_coalesce_witness :
    (fireTimer 50 (burstRecord (["x", "y"] ++ ["z"]) (initHistory ("a")))).undoStack =
      (if (initHistory ("a")).undoStack.length + 1 > 50
       then ((initHistory ("a")).undoStack ++ [(initHistory ("a")).lastPushedValue]).drop 1
       else (initHistory ("a")).undoStack ++ [(initHistory ("a")).lastPushedValue]) ∧
    (fireTimer 50 (burstRecord (["x", "y"] ++ ["z"]) (initHistory ("a")))).lastPushedValue =
      "z" ∧
    ∀ w ∈ (fireTimer 50 (burstRecord (["x", "y"] ++ ["z"]) (initHistory ("a")))).undoStack,
      w ∈ (initHistory ("a")).undoStack ∨ w = (initHistory ("a")).lastPushedValue :=
  (pushToHistory_burst_coalesce 50 (initHistory ("a")) ["x", "y"] ("z")).2 (by decide)

/-- C6 counterexample: the claim "the redo stack is empty immediately
after any committed record" fails when the recorded value equals the
last committed value: after committing `b`, undoing, and re-committing
the already-committed value `a`, the timer fires but pushes nothing and
leaves the redo stack nonempty. -/
theorem redo_cleared_counterexample :
    (recordCommit 50 ("a") (undoStep (recordCommit 50 ("b") (initHistory ("a"))))).redoStack ≠
      [] := by decide

/-- C6 (amended): the redo stack is empty immediately after any committed
record of a value distinct from the last committed value; in particular,
after `undo()` followed by such a record, `redo()` returns the
"nothing to redo" sentinel `null`. -/
theorem redo_cleared_on_distinct_record (maxHistory : Nat) (st : HistoryState) (v : String)
    (h : v ≠ st.lastPushedValue) :
    (recordCommit maxHistory v st).redoStack = [] ∧
    (redoFn (recordCommit maxHistory v st)).1 = none := by
  rw [recordCommit_of_ne maxHistory v st h]
  exact ⟨rfl, rfl⟩

set_option maxRecDepth 40000

/-- C3 counterexample: with the deployed `maxHistory = 50`, committing 52
distinct values evicts the two oldest undo entries, so of the `k-1 = 51`
undo calls only 50 succeed, and the final (51st) redo call finds an empty
redo stack and returns the `null` sentinel instead of `v52` (the
committed value nevertheless ends at `v52`). -/
theorem history_undo_redo_roundtrip_counterexample :
    (redoFn (redoStep^[50] (undoStep^[51]
        (recordAll 50 ((List.range 52).map (fun i => String.mk [Char.ofNat (65 + i)]))
          (initHistory ("0")))))).1 = none := by
  decide

/-- C3 (amended): for recorded values `v1, …, vk` (`k ≥ 2`, each value
distinct from the previously committed one, each recording committed),
provided `k - 1 ≤ maxHistory` so that no needed undo entry is evicted,
`k-1` undo calls followed by `k-1` redo calls make the committed value
`vk` again, with the final redo returning `vk`. -/
theorem history_undo_redo_roundtrip (maxHistory : Nat) (v0 : String) (values : List String)
    (hlen : 2 ≤ values.length) (hbound : values.length - 1 ≤ maxHistory)
    (hdist : adjDistinct v0 values = true) :
    (redoFn (redoStep^[values.length - 2] (undoStep^[values.length - 1]
        (recordAll maxHistory values (initHistory v0))))).1 =
      some (values.getLastD v0) ∧
    (redoFn (redoStep^[values.length - 2] (undoStep^[values.length - 1]
        (recordAll maxHistory values (initHistory v0))))).2.lastPushedValue =
      values.getLastD v0 := by
  set st0 := recordAll maxHistory values (initHistory v0) with hst0
  obtain ⟨k, hk2⟩ : ∃ k, values.length = k + 2 := ⟨values.length - 2, by omega⟩
  have h1 : values.length - 1 = k + 1 := by omega
  have h2 : values.length - 2 = k := by omega
  rw [h1, h2]
  obtain ⟨g1, g2, g3, g4⟩ :=
    recordAll_facts maxHistory values (initHistory v0) hdist rfl rfl
      (by simp [initHistory])
  have g1' : st0.lastPushedValue = values.getLastD v0 := g1
  have g4' : st0.undoStack.length = min values.length maxHistory := by
    simpa [initHistory] using g4
  have hk : k + 1 ≤ st0.undoStack.length := by
    rw [g4']
    omega
  have hpair := redo_undo_iter (k + 1) st0 hk g2
  rw [Function.iterate_succ_apply' redoStep] at hpair
  have hulen := (undoStep_iter_facts (k + 1) st0 hk g2).2.1
  have hslen : (redoStep^[k] (undoStep^[k + 1] st0)).redoStack.length = 1 := by
    rw [redoStep_iter_redo_length k _ (by rw [hulen, g3]; simp)]
    rw [hulen, g3]
    simp
  have hsne : (redoStep^[k] (undoStep^[k + 1] st0)).redoStack ≠ [] := by
    intro h0
    rw [h0] at hslen
    simp at hslen
  rcases (redoStep^[k] (undoStep^[k + 1] st0)).redoStack.eq_nil_or_concat' with h0 | ⟨L, x, hL⟩
  · exact absurd h0 hsne
  · have hst : (redoFn (redoStep^[k] (undoStep^[k + 1] st0))).2 = st0 := hpair
    have hfn1 : (redoFn (redoStep^[k] (undoStep^[k + 1] st0))).1 = some x := by
      unfold redoFn
      rw [hL, List.getLast?_concat]
    have hfn2 : (redoFn (redoStep^[k] (undoStep^[k + 1] st0))).2.lastPushedValue = x := by
      unfold redoFn
      rw [hL, List.getLast?_concat]
    have hx : x = values.getLastD v0 := by
      rw [← hfn2, hst, g1']
    exact ⟨by rw [hfn1, hx], by rw [hst, g1']⟩

/-- C3 witness for the amended round-trip law: `v0 = "a"`,
`values = ["b", "c"]`, one undo then one redo restores `"c"`. -/
theorem history_undo_redo_roundtrip_witness :
    (redoFn (redoStep^[(["b", "c"] : List String).length - 2]
        (undoStep^[(["b", "c"] : List String).length - 1]
          (recordAll 50 ["b", "c"] (initHistory ("a")))))).1 =
      some ((["b", "c"] : List String).getLastD ("a")) ∧
    (redoFn (redoStep^[(["b", "c"] : List String).length - 2]
        (undoStep^[(["b", "c"] : List String).length - 1]
          (recordAll 50 ["b", "c"] (initHistory ("a")))))).2.lastPushedValue =
      (["b", "c"] : List String).getLastD ("a") :=
  history_undo_redo_roundtrip 50 ("a") ["b", "c"] (by decide) (by decide) (by decide)

/-- C1 counterexample: `<script>` is deliberately allow-listed
(`ALLOWED_TAGS` includes `script` for CDN resources), so a script element
survives `sanitizeHtml` verbatim, refuting the claim that the sanitized
output contains no `<script>...</script>`. -/
theorem sanitize_dangerous_content_counterexample :
    containsSeq (("<script").data)
      (sanitizeHtml ("<p>Hi</p><script>alert(1)</script>")).data = true := by
  decide

/-- C1 (amended): both sanitizer profiles remove every inline `on*`
event-handler attribute and every `href="javascript:..."` URI (even
case-mangled or whitespace-obfuscated ones), and any fragment made of
allow-listed tags with accepted attributes — e.g. sibling `<strong>`
markup — is preserved verbatim; `<script>` elements, however, are
deliberately allow-listed and retained. -/
theorem sanitize_strips_handlers_and_js_hrefs :
    (∀ d : List HtmlNode,
      nodesAttrsSafe (purifyNodes true allowedAttrList inputUriSchemes d) = true) ∧
    (∀ d : List HtmlNode,
      nodesAttrsSafe (purifyNodes false outputAllowedAttrList defaultUriSchemes d) = true) ∧
    (∀ d : List HtmlNode, inputCleanNodes d = true →
      purifyNodes true allowedAttrList inputUriSchemes d = d) := by
  refine ⟨?_, ?_, purifyNodes_fixed⟩
  · intro d
    exact purifyNodes_attrsSafe true allowedAttrList inputUriSchemes
      (by decide) (by decide) d
  · intro d
    refine purifyNodes_attrsSafe false outputAllowedAttrList defaultUriSchemes ?_
      (by decide) d
    intro a ha
    exact (by decide :
        ∀ a ∈ allowedAttrList, (("on").data).isPrefixOf a = false)
      a (List.mem_of_mem_filter ha)

/-- C1 witness: a fragment with an `onclick` handler and a
`javascript:` link sanitizes to a safe fragment, and a clean `<strong>`
fragment passes through unchanged. -/
theorem sanitize_strips_handlers_and_js_hrefs_witness :
    nodesAttrsSafe (purifyNodes true allowedAttrList inputUriSchemes
      [HtmlNode.elem (("p").data) [((("onclick").data), (("alert(1)").data))]
        [HtmlNode.elem (("a").data)
          [((("href").data), (("javascript:alert(2)").data))] []]]) = true ∧
    purifyNodes true allowedAttrList inputUriSchemes
      [HtmlNode.elem (("strong").data) [] [HtmlNode.text (("b").data)]] =
      [HtmlNode.elem (("strong").data) [] [HtmlNode.text (("b").data)]] :=
  ⟨sanitize_strips_handlers_and_js_hrefs.1 _,
   sanitize_strips_handlers_and_js_hrefs.2.2 _ (by decide)⟩

/-- C2 counterexample: the trailing-line-break pass is anchored at the
end of the string and removes only the final `<br>`, so sanitization is
not idempotent: `a<br><br>` sanitizes to `a<br>`, which sanitizes again
to `a`. -/
theorem sanitizeForOutput_not_idempotent :
    sanitizeForOutput (sanitizeForOutput ("a<br><br>")) ≠
      sanitizeForOutput ("a<br><br>") := by
  decide

/-- C2 (amended): `sanitizeForOutput` is idempotent on every input whose
sanitized output is a fixpoint of each pass of the pipeline — the
DOMPurify pass, the empty-paragraph removal and the trailing-line-break
removal (in particular the output must not end in a `<br>`); the
whitespace trim is idempotent unconditionally. -/
theorem sanitizeForOutput_idempotent_on_stable (s : String)
    (hpurify : purifyOutputC (sanitizeForOutputC s.data) = sanitizeForOutputC s.data)
    (hp : removeEmptyP (sanitizeForOutputC s.data) = sanitizeForOutputC s.data)
    (hbr : removeTrailingBr (sanitizeForOutputC s.data) = sanitizeForOutputC s.data) :
    sanitizeForOutput (sanitizeForOutput s) = sanitizeForOutput s := by
  have key : sanitizeForOutputC (sanitizeForOutputC s.data) = sanitizeForOutputC s.data :=
    calc sanitizeForOutputC (sanitizeForOutputC s.data)
        = trimChars (removeTrailingBr (removeEmptyP
            (purifyOutputC (sanitizeForOutputC s.data)))) := rfl
      _ = trimChars (sanitizeForOutputC s.data) := by rw [hpurify, hp, hbr]
      _ = sanitizeForOutputC s.data :=
          trimChars_idem (removeTrailingBr (removeEmptyP (purifyOutputC s.data)))
  show (⟨sanitizeForOutputC (String.data ⟨sanitizeForOutputC s.data⟩)⟩ : String) =
    (⟨sanitizeForOutputC s.data⟩ : String)
  exact congrArg (fun cs => (⟨cs⟩ : String)) key

/-- C2 witness: on `<p>Hello</p>` every pass is stable, so a second
sanitization changes nothing. -/
theorem sanitizeForOutput_idempotent_witness :
    sanitizeForOutput (sanitizeForOutput ("<p>Hello</p>")) =
      sanitizeForOutput ("<p>Hello</p>") :=
  sanitizeForOutput_idempotent_on_stable ("<p>Hello</p>")
    (by decide) (by decide) (by decide)

/-- C6 witness: a concrete undo followed by a distinct committed record
leaves nothing to redo. -/
theorem redo_cleared_on_distinct_record_witness :
    (recordCommit 50 ("c") (undoStep (recordCommit 50 ("b") (initHistory ("a"))))).redoStack =
      [] ∧
    (redoFn (recordCommit 50 ("c")
        (undoStep (recordCommit 50 ("b") (initHistory ("a")))))).1 = none :=
  redo_cleared_on_distinct_record 50
    (undoStep (recordCommit 50 ("b") (initHistory ("a")))) ("c") (by decide)

end HtmlEditor
